import Mathlib

/-!
Verification of the proof-of-work mining and validation core of
`crypto.go` (package main).  The Go source is embedded shallowly:

* SHA-256 (Go `crypto/sha256.Sum256`) is implemented concretely over
  byte lists, so hash-related properties are about the real digest.
* `fmt.Sprintf("%s:%v:%d", prevHash, transactions, nonce)` is embedded
  as `blockDataString`, reproducing Go `%v` formatting of a
  `[]Transaction` slice.
* the mining goroutine `startMining`, the validator `validateBlock`,
  and the receive loop body of `receiveAndValidateBlocks` are embedded
  as fuel-indexed pure functions; the stop channel and the IPFS
  `Add` call (BlobStore.Put) are oracles indexed by the loop iteration.
* `encoding/json` marshalling of `Block` is embedded by a concrete
  encoder and a decoder for its output shape.
-/

namespace CryptoGo

/- ### SHA-256 over byte lists (Go crypto/sha256) -/

/-- Reduce a machine word to 32 bits. -/
def u32 (n : Nat) : Nat := n % 4294967296

/-- Right rotation of a 32-bit word. -/
def rotr (k x : Nat) : Nat := u32 ((x >>> k) ||| (x <<< (32 - k)))

/-- Round constants of SHA-256 (FIPS 180-4), written in decimal. -/
def shaK : List Nat :=
  [1116352408, 1899447441, 3049323471, 3921009573,
   961987163, 1508970993, 2453635748, 2870763221,
   3624381080, 310598401, 607225278, 1426881987,
   1925078388, 2162078206, 2614888103, 3248222580,
   3835390401, 4022224774, 264347078, 604807628,
   770255983, 1249150122, 1555081692, 1996064986,
   2554220882, 2821834349, 2952996808, 3210313671,
   3336571891, 3584528711, 113926993, 338241895,
   666307205, 773529912, 1294757372, 1396182291,
   1695183700, 1986661051, 2177026350, 2456956037,
   2730485921, 2820302411, 3259730800, 3345764771,
   3516065817, 3600352804, 4094571909, 275423344,
   430227734, 506948616, 659060556, 883997877,
   958139571, 1322822218, 1537002063, 1747873779,
   1955562222, 2024104815, 2227730452, 2361852424,
   2428436474, 2756734187, 3204031479, 3329325298]

/-- UTF-8 bytes of one character. -/
def charBytes (c : Char) : List Nat :=
  let n := c.toNat
  if n < 0x80 then [n]
  else if n < 0x800 then
    [0xC0 ||| (n >>> 6), 0x80 ||| (n &&& 0x3F)]
  else if n < 0x10000 then
    [0xE0 ||| (n >>> 12), 0x80 ||| ((n >>> 6) &&& 0x3F), 0x80 ||| (n &&& 0x3F)]
  else
    [0xF0 ||| (n >>> 18), 0x80 ||| ((n >>> 12) &&& 0x3F),
     0x80 ||| ((n >>> 6) &&& 0x3F), 0x80 ||| (n &&& 0x3F)]

/-- UTF-8 encoding of a string as a byte list (Go `[]byte(s)`). -/
def utf8Bytes (s : String) : List Nat :=
  s.data.foldr (fun c acc => charBytes c ++ acc) []

/-- Big-endian 8-byte encoding of the message bit length. -/
def be64 (n : Nat) : List Nat :=
  [(n >>> 56) &&& 255, (n >>> 48) &&& 255, (n >>> 40) &&& 255,
   (n >>> 32) &&& 255, (n >>> 24) &&& 255, (n >>> 16) &&& 255,
   (n >>> 8) &&& 255, n &&& 255]

/-- SHA-256 message padding. -/
def padMessage (m : List Nat) : List Nat :=
  let len := m.length
  let zeros := (64 - ((len + 9) % 64)) % 64
  m ++ [0x80] ++ List.replicate zeros 0 ++ be64 (len * 8)

/-- Group a byte list into big-endian 32-bit words. -/
def toWords : List Nat → List Nat
  | b0 :: b1 :: b2 :: b3 :: rest =>
    (((b0 * 256 + b1) * 256 + b2) * 256 + b3) :: toWords rest
  | _ => []

/-- Extend the 16 message-schedule words to 64, keeping the list reversed. -/
def extendW : Nat → List Nat → List Nat
  | 0, wrev => wrev
  | k + 1, wrev =>
    let w2 := wrev.getD 1 0
    let w15 := wrev.getD 14 0
    let s0 := rotr 7 w15 ^^^ rotr 18 w15 ^^^ (w15 >>> 3)
    let s1 := rotr 17 w2 ^^^ rotr 19 w2 ^^^ (w2 >>> 10)
    extendW k (u32 (wrev.getD 15 0 + s0 + wrev.getD 6 0 + s1) :: wrev)

/-- Working registers of the compression function. -/
structure Regs where
  a : Nat
  b : Nat
  c : Nat
  d : Nat
  e : Nat
  f : Nat
  g : Nat
  h : Nat

/-- One SHA-256 compression round. -/
def round (s : Regs) (kw : Nat × Nat) : Regs :=
  let S1 := rotr 6 s.e ^^^ rotr 11 s.e ^^^ rotr 25 s.e
  let ch := (s.e &&& s.f) ^^^ ((4294967295 ^^^ s.e) &&& s.g)
  let temp1 := u32 (s.h + S1 + ch + kw.1 + kw.2)
  let S0 := rotr 2 s.a ^^^ rotr 13 s.a ^^^ rotr 22 s.a
  let maj := (s.a &&& s.b) ^^^ (s.a &&& s.c) ^^^ (s.b &&& s.c)
  let temp2 := u32 (S0 + maj)
  ⟨u32 (temp1 + temp2), s.a, s.b, s.c, u32 (s.d + temp1), s.e, s.f, s.g⟩

/-- Compress one 64-byte chunk into the running hash state. -/
def compress (hs : Regs) (chunk : List Nat) : Regs :=
  let w := (extendW 48 (toWords chunk).reverse).reverse
  let r := (shaK.zip w).foldl round hs
  ⟨u32 (hs.a + r.a), u32 (hs.b + r.b), u32 (hs.c + r.c), u32 (hs.d + r.d),
   u32 (hs.e + r.e), u32 (hs.f + r.f), u32 (hs.g + r.g), u32 (hs.h + r.h)⟩

/-- Fold the compression function over all 64-byte chunks.  The first
argument is recursion fuel; any fuel at least the number of chunks
computes the digest state. -/
def processChunks : Nat → Regs → List Nat → Regs
  | 0, hs, _ => hs
  | fuel + 1, hs, m =>
    if m = [] then hs
    else processChunks fuel (compress hs (m.take 64)) (m.drop 64)

/-- Big-endian bytes of one 32-bit word. -/
def wordBytes (w : Nat) : List Nat :=
  [(w >>> 24) &&& 255, (w >>> 16) &&& 255, (w >>> 8) &&& 255, w &&& 255]

/-- SHA-256 digest (32 bytes) of a byte list. -/
def sha256 (m : List Nat) : List Nat :=
  let init : Regs :=
    ⟨1779033703, 3144134277, 1013904242, 2773480762,
     1359893119, 2600822924, 528734635, 1541459225⟩
  let padded := padMessage m
  let r := processChunks padded.length init padded
  wordBytes r.a ++ wordBytes r.b ++ wordBytes r.c ++ wordBytes r.d ++
  wordBytes r.e ++ wordBytes r.f ++ wordBytes r.g ++ wordBytes r.h

/-- Lowercase hex digit for a value below 16. -/
def hexDigit (n : Nat) : Char :=
  if n < 10 then Char.ofNat (48 + n) else Char.ofNat (87 + n)

/-- Lowercase hex string of a byte list (Go `hex.EncodeToString`). -/
def hexEncode (bs : List Nat) : String :=
  ⟨bs.foldr (fun b acc => hexDigit (b / 16) :: hexDigit (b % 16) :: acc) []⟩

/-- Hex digest of a string, as computed by
`hex.EncodeToString(sha256.Sum256([]byte(s)))`. -/
def sha256hex (s : String) : String := hexEncode (sha256 (utf8Bytes s))

/-- Digest of a string read as a big-endian unsigned integer, as computed
by `new(big.Int).SetBytes(hash)`. -/
def sha256nat (s : String) : Nat :=
  (sha256 (utf8Bytes s)).foldl (fun a b => a * 256 + b) 0

/- ### Data model (crypto.go lines 20-43) -/

/-- Transaction struct of crypto.go. -/
structure Transaction where
  ID : String
  Data : String
deriving DecidableEq, Repr

/-- Block struct of crypto.go.  Go `int` fields are embedded as `Int`
(64-bit wraparound never occurs in the modelled executions). -/
structure Block where
  PrevHash : String
  Transactions : List Transaction
  Nonce : Int
  Hash : String
  PrevCID : String
  BlockNumber : Int
deriving DecidableEq, Repr

/-- Process-wide difficulty target,
`big.NewInt(1).Lsh(big.NewInt(1), 245)`. -/
def target : Nat := 2 ^ 245

/-- Transaction ID from a result string (crypto.go lines 318-321). -/
def generateTransactionID (data : String) : String := sha256hex data

/-- Transaction built by the intake path from an Executor result
(crypto.go lines 130-134). -/
def processTransaction (result : String) : Transaction :=
  { ID := generateTransactionID result, Data := result }

/-- Hash of a raw received block payload (crypto.go lines 323-326). -/
def getBlockHash (blockData : String) : String := sha256hex blockData

/- ### Go fmt formatting used by the miner -/

/-- Go `%v` rendering of one Transaction struct value. -/
def goFmtTransaction (t : Transaction) : String :=
  "\x7b" ++ t.ID ++ " " ++ t.Data ++ "\x7d"

/-- Go `%v` rendering of a `[]Transaction` slice value. -/
def goFmtTransactions (ts : List Transaction) : String :=
  "[" ++ String.intercalate " " (ts.map goFmtTransaction) ++ "]"

/-- Canonical pre-image hashed by the miner,
`fmt.Sprintf("%s:%v:%d", prevHash, transactions, nonce)`
(crypto.go line 169). -/
def blockDataString (prevHash : String) (ts : List Transaction) (nonce : Int) : String :=
  prevHash ++ ":" ++ goFmtTransactions ts ++ ":" ++ toString nonce

/- ### Mining engine (crypto.go lines 145-208)

The stop channel and the IPFS upload are external events, embedded as
oracles indexed by the iteration counter `att` (one index per pass of
the inner `for` loop, i.e. per `select` check): `stop i = true` means a
receive on `stopMining` is ready at check `i`; `put i` is the result of
`uploadBlockToIPFS` when invoked at iteration `i` (`none` = error).
Fuel bounds the number of loop iterations modelled. -/

/-- Outcome of a run of the mining goroutine. -/
inductive MineOutcome where
  /-- Fewer than 3 transactions ever arrive: the dequeue blocks forever. -/
  | blocked
  /-- The goroutine returned through a `stopMining` branch after
  `attempts` loop iterations. -/
  | stopped (attempts : Nat)
  /-- The goroutine emitted block `b`, sent `broadcasts` over TCP, left
  the counter at `minedBlocks` and ran `attempts` iterations. -/
  | emitted (b : Block) (broadcasts : List (String × Block))
      (minedBlocks : Int) (attempts : Nat)
  /-- Fuel ran out before the loop terminated. -/
  | fuelOut
deriving DecidableEq, Repr

/-- Inner proof-of-work loop of `startMining` (crypto.go lines 163-205).
Each iteration first polls the stop channel, then hashes the candidate;
on a hash below target it builds the Block, bumps `minedBlocks`, calls
the IPFS upload, and on upload error `continue`s (retrying the same
nonce), while on success it overwrites `PrevCID` with the returned CID,
broadcasts to every connected miner, emits the block and returns. -/
def mineLoop (fuel : Nat) (stop : Nat → Bool) (put : Nat → Option String)
    (prevHash prevCID : String) (txs : List Transaction) (nonce : Int)
    (minedBlocks : Int) (miners : List String) (att : Nat) : MineOutcome :=
  match fuel with
  | 0 => .fuelOut
  | fuel + 1 =>
    if stop att then .stopped att
    else
      let blockData := blockDataString prevHash txs nonce
      if sha256nat blockData < target then
        let block : Block :=
          { PrevHash := prevHash, Transactions := txs, Nonce := nonce,
            Hash := sha256hex blockData, PrevCID := prevCID,
            BlockNumber := minedBlocks }
        match put att with
        | none =>
          mineLoop fuel stop put prevHash prevCID txs nonce
            (minedBlocks + 1) miners (att + 1)
        | some cid =>
          let b2 := { block with PrevCID := cid }
          .emitted b2 (miners.map fun m => (m, b2)) (minedBlocks + 1) (att + 1)
      else
        mineLoop fuel stop put prevHash prevCID txs (nonce + 1)
          minedBlocks miners (att + 1)

/-- The `startMining` goroutine body: poll the stop channel, dequeue
exactly 3 transactions from the buffer (blocking if fewer ever arrive),
then run the proof-of-work loop.  All exits of the inner loop `return`
from the goroutine, so the outer `for` never runs a second cycle. -/
def startMining (fuel : Nat) (stop : Nat → Bool) (put : Nat → Option String)
    (prevHash prevCID : String) (buffer : List Transaction)
    (minedBlocks : Int) (miners : List String) : MineOutcome :=
  if stop 0 then .stopped 0
  else if buffer.length < 3 then .blocked
  else mineLoop fuel stop put prevHash prevCID (buffer.take 3) 0
    minedBlocks miners 1

/-- Blocks emitted over the `newBlock` channel by a run. -/
def emittedBlocks : MineOutcome → List Block
  | .emitted b _ _ _ => [b]
  | _ => []

/-- TCP sends performed by a run (destination, block). -/
def broadcastsOf : MineOutcome → List (String × Block)
  | .emitted _ bc _ _ => bc
  | _ => []

/- ### JSON encoding of Block (Go encoding/json)

`sendBlockToMiner` serializes with `json.Marshal`, which emits the
fields in struct order and escapes `"`, `\`, the control characters
(with short forms for newline, carriage return and tab), the HTML
characters and U+2028/U+2029.  The `Transactions` slice of every block
built by the miner is non-nil, so it marshals as a JSON array.  The
decoder below parses exactly that output shape, embedding the behaviour
of `json.Unmarshal` on marshalled blocks. -/

/-- Escape of one character inside a JSON string, matching the Go
encoder (HTML escaping on, as in `json.Marshal`). -/
def escapeChar (c : Char) : List Char :=
  if c = '"' then ['\\', '"']
  else if c = '\\' then ['\\', '\\']
  else if c = '\n' then ['\\', 'n']
  else if c = '\r' then ['\\', 'r']
  else if c = '\t' then ['\\', 't']
  else if c.toNat < 32 then
    ['\\', 'u', '0', '0', hexDigit (c.toNat / 16), hexDigit (c.toNat % 16)]
  else if c = '<' then ['\\', 'u', '0', '0', '3', 'c']
  else if c = '>' then ['\\', 'u', '0', '0', '3', 'e']
  else if c = '&' then ['\\', 'u', '0', '0', '2', '6']
  else if c.toNat = 0x2028 then ['\\', 'u', '2', '0', '2', '8']
  else if c.toNat = 0x2029 then ['\\', 'u', '2', '0', '2', '9']
  else [c]

/-- Escape every character of a JSON string body. -/
def escapeList : List Char → List Char
  | [] => []
  | c :: cs => escapeChar c ++ escapeList cs

/-- Quoted JSON string literal for a Lean string. -/
def encodeJStringL (s : String) : List Char :=
  '"' :: (escapeList s.data ++ ['"'])

/-- Decimal digit character. -/
def decDigit (n : Nat) : Char := Char.ofNat (48 + n)

/-- Decimal digits of a natural number, most significant first,
accumulated onto `acc`; the first argument is recursion fuel, and any
fuel at least `n` computes all digits. -/
def natDigitsAux : Nat → Nat → List Char → List Char
  | 0, _, acc => acc
  | fuel + 1, n, acc =>
    if n = 0 then acc
    else natDigitsAux fuel (n / 10) (decDigit (n % 10) :: acc)

/-- Decimal rendering of a natural number. -/
def natToDigits (n : Nat) : List Char :=
  if n = 0 then ['0'] else natDigitsAux n n []

/-- Decimal rendering of an integer (Go `%d` / JSON number). -/
def intToDigits (i : Int) : List Char :=
  if i < 0 then '-' :: natToDigits i.natAbs else natToDigits i.toNat

/-- JSON object for one Transaction. -/
def encodeTransactionL (t : Transaction) : List Char :=
  "\x7b\"ID\":".data ++ encodeJStringL t.ID ++
  ",\"Data\":".data ++ encodeJStringL t.Data ++ ['\x7d']

/-- Comma-separated bodies of the transaction array. -/
def encodeTxsBody : List Transaction → List Char
  | [] => []
  | [t] => encodeTransactionL t
  | t :: ts => encodeTransactionL t ++ ',' :: encodeTxsBody ts

/-- JSON text produced by `json.Marshal` for a Block value. -/
def blockToJsonL (b : Block) : List Char :=
  "\x7b\"PrevHash\":".data ++ encodeJStringL b.PrevHash ++
  ",\"Transactions\":[".data ++ encodeTxsBody b.Transactions ++
  "],\"Nonce\":".data ++ intToDigits b.Nonce ++
  ",\"Hash\":".data ++ encodeJStringL b.Hash ++
  ",\"PrevCID\":".data ++ encodeJStringL b.PrevCID ++
  ",\"BlockNumber\":".data ++ intToDigits b.BlockNumber ++ ['\x7d']

/-- Serialized block string sent over TCP (crypto.go line 220). -/
def blockToJson (b : Block) : String := ⟨blockToJsonL b⟩

/-- Value of a hexadecimal digit character. -/
def hexVal (c : Char) : Option Nat :=
  if 48 ≤ c.toNat ∧ c.toNat ≤ 57 then some (c.toNat - 48)
  else if 97 ≤ c.toNat ∧ c.toNat ≤ 102 then some (c.toNat - 87)
  else if 65 ≤ c.toNat ∧ c.toNat ≤ 70 then some (c.toNat - 55)
  else none

/-- Single-character JSON escapes. -/
def unescSimple (c : Char) : Option Char :=
  if c = '"' then some '"'
  else if c = '\\' then some '\\'
  else if c = '/' then some '/'
  else if c = 'n' then some '\n'
  else if c = 'r' then some '\r'
  else if c = 't' then some '\t'
  else if c = 'b' then some (Char.ofNat 8)
  else if c = 'f' then some (Char.ofNat 12)
  else none

/-- Parse the body of a JSON string up to its closing quote, returning
the decoded characters and the unconsumed input.  The first argument is
recursion fuel; fuel at least the number of encoded characters plus one
suffices. -/
def parseJStringBody : Nat → List Char → Option (List Char × List Char)
  | 0, _ => none
  | _ + 1, [] => none
  | fuel + 1, c :: rest =>
    if c = '"' then some ([], rest)
    else if c = '\\' then
      match rest with
      | [] => none
      | e :: rest2 =>
        if e = 'u' then
          match rest2 with
          | h1 :: h2 :: h3 :: h4 :: rest3 =>
            match hexVal h1, hexVal h2, hexVal h3, hexVal h4 with
            | some a, some b, some c2, some d =>
              match parseJStringBody fuel rest3 with
              | some (s, r) =>
                some (Char.ofNat (((a * 16 + b) * 16 + c2) * 16 + d) :: s, r)
              | none => none
            | _, _, _, _ => none
          | _ => none
        else
          match unescSimple e with
          | some c2 =>
            match parseJStringBody fuel rest2 with
            | some (s, r) => some (c2 :: s, r)
            | none => none
          | none => none
    else
      match parseJStringBody fuel rest with
      | some (s, r) => some (c :: s, r)
      | none => none

/-- Parse a quoted JSON string. -/
def parseJString (l : List Char) : Option (String × List Char) :=
  match l with
  | c :: rest =>
    if c = '"' then
      match parseJStringBody rest.length rest with
      | some (s, r) => some (⟨s⟩, r)
      | none => none
    else none
  | [] => none

/-- Consume an expected literal prefix. -/
def expects : List Char → List Char → Option (List Char)
  | [], l => some l
  | _ :: _, [] => none
  | e :: es, c :: cs => if c = e then expects es cs else none

/-- Decimal digit test. -/
def isDigit (c : Char) : Bool := 48 ≤ c.toNat && c.toNat ≤ 57

/-- Split off the longest digit prefix. -/
def takeDigits : List Char → List Char × List Char
  | [] => ([], [])
  | c :: cs =>
    if isDigit c then
      let (d, r) := takeDigits cs
      (c :: d, r)
    else ([], c :: cs)

/-- Numeric value of a digit string. -/
def digitsVal (ds : List Char) : Nat :=
  ds.foldl (fun a c => a * 10 + (c.toNat - 48)) 0

/-- Parse a JSON natural number. -/
def parseNat (l : List Char) : Option (Nat × List Char) :=
  match takeDigits l with
  | ([], _) => none
  | (ds, r) => some (digitsVal ds, r)

/-- Parse a JSON integer. -/
def parseInt (l : List Char) : Option (Int × List Char) :=
  match l with
  | [] => none
  | c :: rest =>
    if c = '-' then
      match parseNat rest with
      | some (n, r) => some (-(n : Int), r)
      | none => none
    else
      match parseNat (c :: rest) with
      | some (n, r) => some ((n : Int), r)
      | none => none

/-- Parse one transaction object. -/
def parseTransaction (l : List Char) : Option (Transaction × List Char) :=
  (expects "\x7b\"ID\":".data l).bind fun l1 =>
  (parseJString l1).bind fun (id, l2) =>
  (expects ",\"Data\":".data l2).bind fun l3 =>
  (parseJString l3).bind fun (dt, l4) =>
  (expects ['\x7d'] l4).map fun l5 => (⟨id, dt⟩, l5)

/-- Parse the elements of a non-empty transaction array after `[`. -/
def parseTxsAux (fuel : Nat) (l : List Char) : Option (List Transaction × List Char) :=
  match fuel with
  | 0 => none
  | fuel + 1 =>
    match parseTransaction l with
    | none => none
    | some (t, r) =>
      match r with
      | ',' :: r2 =>
        match parseTxsAux fuel r2 with
        | some (ts, r3) => some (t :: ts, r3)
        | none => none
      | ']' :: r2 => some ([t], r2)
      | _ => none

/-- Parse the transaction array. -/
def parseTxs (l : List Char) : Option (List Transaction × List Char) :=
  match l with
  | '[' :: ']' :: r => some ([], r)
  | '[' :: rest => parseTxsAux rest.length rest
  | _ => none

/-- Decode a marshalled Block, embedding `json.Unmarshal` restricted to
the output shape of `json.Marshal` on Block values. -/
def blockFromJsonL (l : List Char) : Option Block :=
  (expects "\x7b\"PrevHash\":".data l).bind fun l1 =>
  (parseJString l1).bind fun (ph, l2) =>
  (expects ",\"Transactions\":".data l2).bind fun l3 =>
  (parseTxs l3).bind fun (ts, l4) =>
  (expects ",\"Nonce\":".data l4).bind fun l5 =>
  (parseInt l5).bind fun (nonce, l6) =>
  (expects ",\"Hash\":".data l6).bind fun l7 =>
  (parseJString l7).bind fun (hsh, l8) =>
  (expects ",\"PrevCID\":".data l8).bind fun l9 =>
  (parseJString l9).bind fun (pcid, l10) =>
  (expects ",\"BlockNumber\":".data l10).bind fun l11 =>
  (parseInt l11).bind fun (bn, l12) =>
  match l12 with
  | ['\x7d'] => some ⟨ph, ts, nonce, hsh, pcid, bn⟩
  | _ => none

/-- Decode a received block payload string. -/
def blockFromJson (s : String) : Option Block := blockFromJsonL s.data

/- ### Block validation and vote tally (crypto.go lines 248-317) -/

/-- Validate a block payload (crypto.go lines 296-317): decode the
JSON, reject on previous-hash mismatch unless the expected hash is the
"-1" sentinel, reject when any transaction ID is empty.  The `tgt`
parameter is received and never used, exactly as in the source. -/
def validateBlock (blockData : String) (prevHash : String) (tgt : Nat) : Bool :=
  match blockFromJson blockData with
  | none => false
  | some block =>
    if prevHash ≠ "-1" ∧ block.PrevHash ≠ prevHash then false
    else block.Transactions.all fun tx => tx.ID != ""

/-- Result of handling one received block payload: the vote tally map,
whether a vote was recorded, and whether the quorum acceptance message
was printed. -/
structure RecvResult where
  tally : String → Nat
  voted : Bool
  quorum : Bool

/-- Body of the receive loop of `receiveAndValidateBlocks`
(crypto.go lines 269-288): decode (drop on error), validate against the
"-1" sentinel and the global target, then increment the vote tally at
the payload hash and announce when the count exceeds half the connected
miners. -/
def receiveStep (miners : List String) (tally : String → Nat)
    (blockData : String) : RecvResult :=
  match blockFromJson blockData with
  | none => ⟨tally, false, false⟩
  | some _ =>
    if validateBlock blockData "-1" target then
      let blockHash := getBlockHash blockData
      let tally2 := fun h => if h = blockHash then tally h + 1 else tally h
      ⟨tally2, true, decide (miners.length / 2 < tally2 blockHash)⟩
    else ⟨tally, false, false⟩

/- ### Concrete inputs used by the witnesses -/

/-- Three buffered transactions whose nonce-0 candidate hash happens to
fall below the target. -/
def wTxs : List Transaction := [⟨"t1id", "d1"⟩, ⟨"t2id", "d2"⟩, ⟨"w54", "d3"⟩]

/-- A buffer holding one transaction more than a block consumes. -/
def wBuffer4 : List Transaction := wTxs ++ [⟨"t4id", "d4"⟩]

/-- Digest of `blockDataString "-1" wTxs 0`; its leading bytes 0x00 0x1e
put it below `target = 2 ^ 245`. -/
def wHash : String :=
  "001e773eb4753371b7ee39d9e25d30400c2d3e838b7a1b8d793eae22786d91b9"

/-- The block mined from `wTxs` at nonce 0 after a successful upload. -/
def wBlock : Block := ⟨"-1", wTxs, 0, wHash, "QmX", 0⟩

/-- A structurally valid block payload for the validation witnesses. -/
def wRecvBlock : Block := ⟨"-1", [⟨"a", "b"⟩], 0, "h", "c", 0⟩

/-- Payload string of `wRecvBlock`. -/
def wRecvPayload : String := blockToJson wRecvBlock

/-- A block with no transactions and a hash field unrelated to its
contents (and far above the target). -/
def wEmptyBlock : Block := ⟨"-1", [], 0, "bogus", "c", 0⟩

/-- Payload string of `wEmptyBlock`. -/
def wEmptyPayload : String := blockToJson wEmptyBlock

/-- A block containing a transaction with an empty ID. -/
def wBadBlock : Block := ⟨"-1", [⟨"a", "b"⟩, ⟨"", "x"⟩, ⟨"cc", "d"⟩], 0, "h", "c", 0⟩

/-- Payload string of `wBadBlock`. -/
def wBadPayload : String := blockToJson wBadBlock

/- ### Round-trip lemmas for the JSON embedding -/

theorem expects_append (pre r : List Char) : expects pre (pre ++ r) = some r := by
  induction pre with
  | nil => rfl
  | cons c cs ih => simp [expects, ih]

theorem hexVal_hexDigit : ∀ n < 16, hexVal (hexDigit n) = some n := by decide

set_option maxHeartbeats 1600000 in
theorem escapeChar_length_pos (c : Char) : 1 ≤ (escapeChar c).length := by
  unfold escapeChar
  split_ifs <;> simp

theorem escapeList_length_ge (cs : List Char) : cs.length ≤ (escapeList cs).length := by
  induction cs with
  | nil => simp [escapeList]
  | cons c cs ih =>
    have := escapeChar_length_pos c
    simp only [escapeList, List.length_append, List.length_cons]
    omega

set_option maxHeartbeats 6400000 in
theorem parseJStringBody_escape :
    ∀ (cs : List Char) (fuel : Nat) (rest : List Char), cs.length + 1 ≤ fuel →
    parseJStringBody fuel (escapeList cs ++ '"' :: rest) = some (cs, rest) := by
  intro cs
  induction cs with
  | nil =>
    intro fuel rest hf
    obtain ⟨f, rfl⟩ : ∃ f, fuel = f + 1 := ⟨fuel - 1, by omega⟩
    simp [escapeList, parseJStringBody]
  | cons c cs ih =>
    intro fuel rest hf
    obtain ⟨f, rfl⟩ : ∃ f, fuel = f + 1 := ⟨fuel - 1, by omega⟩
    have hf' : cs.length + 1 ≤ f := by
      simp only [List.length_cons] at hf
      omega
    have ihr := ih f rest hf'
    show parseJStringBody (f + 1) (escapeChar c ++ escapeList cs ++ '"' :: rest) = _
    unfold escapeChar
    split_ifs with h1 h2 h3 h4 h5 h6 h7 h8 h9 h10 h11
    · simp [parseJStringBody, unescSimple, ihr, h1]
    · simp [parseJStringBody, unescSimple, ihr, h2]
    · simp [parseJStringBody, unescSimple, ihr, h3]
    · simp [parseJStringBody, unescSimple, ihr, h4]
    · simp [parseJStringBody, unescSimple, ihr, h5]
    · have h0 : hexVal '0' = some 0 := by decide
      have hhi := hexVal_hexDigit (c.toNat / 16) (by omega)
      have hlo := hexVal_hexDigit (c.toNat % 16) (by omega)
      simp [parseJStringBody, ihr, h0, hhi, hlo]
      rw [show c.toNat / 16 * 16 + c.toNat % 16 = c.toNat by omega, Char.ofNat_toNat]
    · subst h7
      simp [parseJStringBody, ihr, hexVal]
    · subst h8
      simp [parseJStringBody, ihr, hexVal]
    · subst h9
      simp [parseJStringBody, ihr, hexVal]
    · have hc : Char.ofNat (((2 * 16 + 0) * 16 + 2) * 16 + 8) = c := by
        rw [show ((2 * 16 + 0) * 16 + 2) * 16 + 8 = c.toNat by omega, Char.ofNat_toNat]
      simp [parseJStringBody, ihr, hexVal, hc]
    · have hc : Char.ofNat (((2 * 16 + 0) * 16 + 2) * 16 + 9) = c := by
        rw [show ((2 * 16 + 0) * 16 + 2) * 16 + 9 = c.toNat by omega, Char.ofNat_toNat]
      simp [parseJStringBody, ihr, hexVal, hc]
    · simp [parseJStringBody, h1, h2, ihr]

theorem parseJString_encode (s : String) (rest : List Char) :
    parseJString (encodeJStringL s ++ rest) = some (s, rest) := by
  obtain ⟨cs⟩ := s
  have he : (encodeJStringL ⟨cs⟩ ++ rest) = '"' :: (escapeList cs ++ '"' :: rest) := by
    simp [encodeJStringL]
  rw [he]
  have hlen : cs.length + 1 ≤ (escapeList cs ++ '"' :: rest).length := by
    have := escapeList_length_ge cs
    simp only [List.length_append, List.length_cons]
    omega
  have hbody := parseJStringBody_escape cs (escapeList cs ++ '"' :: rest).length rest hlen
  simp only [parseJString]
  rw [hbody]
  simp

theorem natDigitsAux_append (fuel : Nat) :
    ∀ (n : Nat) (acc : List Char),
      natDigitsAux fuel n acc = natDigitsAux fuel n [] ++ acc := by
  induction fuel with
  | zero => intro n acc; simp [natDigitsAux]
  | succ f ih =>
    intro n acc
    by_cases hn : n = 0
    · simp [natDigitsAux, hn]
    · simp only [natDigitsAux, if_neg hn]
      rw [ih (n / 10) (decDigit (n % 10) :: acc), ih (n / 10) [decDigit (n % 10)]]
      simp

theorem foldl_natDigitsAux (fuel : Nat) :
    ∀ (n : Nat), n ≤ fuel → ∀ (a : Nat),
      List.foldl (fun a c => a * 10 + (c.toNat - 48)) a (natDigitsAux fuel n []) =
        a * 10 ^ (natDigitsAux fuel n []).length + n := by
  induction fuel with
  | zero =>
    intro n hn a
    have : n = 0 := by omega
    subst this
    simp [natDigitsAux]
  | succ f ih =>
    intro n hn a
    by_cases hn0 : n = 0
    · simp [natDigitsAux, hn0]
    · have h10 : n / 10 ≤ f := by omega
      have hd : (decDigit (n % 10)).toNat = 48 + n % 10 := by
        have h9 : ∀ m < 10, (decDigit m).toNat = 48 + m := by decide
        exact h9 _ (by omega)
      simp only [natDigitsAux, if_neg hn0]
      rw [natDigitsAux_append f (n / 10) [decDigit (n % 10)]]
      rw [List.foldl_append, ih (n / 10) h10 a]
      simp only [List.foldl_cons, List.foldl_nil, List.length_append,
        List.length_cons, List.length_nil, hd]
      have hmod : 48 + n % 10 - 48 = n % 10 := by omega
      rw [hmod, pow_succ]
      have hdm : n / 10 * 10 + n % 10 = n := by omega
      calc (a * 10 ^ (natDigitsAux f (n / 10) []).length + n / 10) * 10 + n % 10
      _ = a * (10 ^ (natDigitsAux f (n / 10) []).length * 10) +
            (n / 10 * 10 + n % 10) := by ring
      _ = a * (10 ^ (natDigitsAux f (n / 10) []).length * 10) + n := by rw [hdm]

theorem digitsVal_natToDigits (n : Nat) : digitsVal (natToDigits n) = n := by
  by_cases hn : n = 0
  · subst hn; decide
  · simp only [natToDigits, if_neg hn, digitsVal]
    rw [foldl_natDigitsAux n n le_rfl 0]
    simp

theorem natDigitsAux_digits (fuel : Nat) :
    ∀ (n : Nat) (acc : List Char), (∀ c ∈ acc, isDigit c = true) →
      ∀ c ∈ natDigitsAux fuel n acc, isDigit c = true := by
  induction fuel with
  | zero => intro n acc hacc; simpa [natDigitsAux] using hacc
  | succ f ih =>
    intro n acc hacc c hc
    by_cases hn : n = 0
    · rw [natDigitsAux, if_pos hn] at hc
      exact hacc c hc
    · rw [natDigitsAux, if_neg hn] at hc
      refine ih (n / 10) _ ?_ c hc
      intro c' hc'
      rcases List.mem_cons.mp hc' with h | h
      · subst h
        have h9 : ∀ m < 10, isDigit (decDigit m) = true := by decide
        exact h9 _ (by omega)
      · exact hacc c' h

theorem natToDigits_digits (n : Nat) : ∀ c ∈ natToDigits n, isDigit c = true := by
  by_cases hn : n = 0
  · subst hn
    intro c hc
    simp [natToDigits] at hc
    subst hc
    decide
  · simp only [natToDigits, if_neg hn]
    exact natDigitsAux_digits n n [] (by simp)

theorem natToDigits_ne_nil (n : Nat) : natToDigits n ≠ [] := by
  by_cases hn : n = 0
  · subst hn; simp [natToDigits]
  · simp only [natToDigits, if_neg hn]
    obtain ⟨f, hf⟩ : ∃ f, n = f + 1 := ⟨n - 1, by omega⟩
    subst hf
    rw [natDigitsAux, if_neg hn]
    rw [natDigitsAux_append]
    simp

theorem takeDigits_append :
    ∀ (ds : List Char), (∀ c ∈ ds, isDigit c = true) →
    ∀ (c : Char), isDigit c = false → ∀ (rest : List Char),
      takeDigits (ds ++ c :: rest) = (ds, c :: rest) := by
  intro ds
  induction ds with
  | nil =>
    intro _ c hc rest
    simp [takeDigits, hc]
  | cons d ds ih =>
    intro hds c hc rest
    have hd : isDigit d = true := hds d (by simp)
    simp only [List.cons_append, takeDigits, hd, if_true]
    show (d :: (takeDigits (ds ++ c :: rest)).1, (takeDigits (ds ++ c :: rest)).2) = _
    rw [ih (fun c' h => hds c' (List.mem_cons_of_mem _ h)) c hc rest]

theorem parseNat_encode (n : Nat) (c : Char) (hc : isDigit c = false) (rest : List Char) :
    parseNat (natToDigits n ++ c :: rest) = some (n, c :: rest) := by
  have ht := takeDigits_append (natToDigits n) (natToDigits_digits n) c hc rest
  rcases hd : natToDigits n with _ | ⟨d, ds⟩
  · exact absurd hd (natToDigits_ne_nil n)
  · have hval : digitsVal (d :: ds) = n := by
      rw [← hd]; exact digitsVal_natToDigits n
    rw [hd] at ht
    rw [List.cons_append] at ht
    simp [parseNat, ht, hval]

theorem isDigit_ne_dash {d : Char} (hd : isDigit d = true) : ¬ d = '-' := by
  intro h
  subst h
  exact absurd hd (by decide)

theorem parseInt_encode (i : Int) (c : Char) (hc : isDigit c = false) (rest : List Char) :
    parseInt (intToDigits i ++ c :: rest) = some (i, c :: rest) := by
  by_cases hi : i < 0
  · simp only [intToDigits, if_pos hi, List.cons_append]
    simp only [parseInt, if_true]
    rw [parseNat_encode i.natAbs c hc rest]
    show some (-((i.natAbs : Nat) : Int), c :: rest) = some (i, c :: rest)
    have hni : -((i.natAbs : Nat) : Int) = i := by omega
    rw [hni]
  · simp only [intToDigits, if_neg hi]
    rcases hd : natToDigits i.toNat with _ | ⟨d, ds⟩
    · exact absurd hd (natToDigits_ne_nil _)
    · have hdd : isDigit d = true := natToDigits_digits i.toNat d (by rw [hd]; simp)
      have hnp := parseNat_encode i.toNat c hc rest
      rw [hd] at hnp
      simp only [List.cons_append] at hnp ⊢
      simp only [parseInt]
      rw [if_neg (isDigit_ne_dash hdd), hnp]
      show some (((i.toNat : Nat) : Int), c :: rest) = some (i, c :: rest)
      have hni : ((i.toNat : Nat) : Int) = i := by omega
      rw [hni]

theorem parseInt_encode_comma (i : Int) (rest : List Char) :
    parseInt (intToDigits i ++ ',' :: rest) = some (i, ',' :: rest) :=
  parseInt_encode i ',' (by decide) rest

theorem parseInt_encode_brace (i : Int) (rest : List Char) :
    parseInt (intToDigits i ++ '\x7d' :: rest) = some (i, '\x7d' :: rest) :=
  parseInt_encode i '\x7d' (by decide) rest

theorem expects_single (c : Char) (r : List Char) : expects [c] (c :: r) = some r := by
  simp [expects]

theorem parseTransaction_encode (t : Transaction) (rest : List Char) :
    parseTransaction (encodeTransactionL t ++ rest) = some (t, rest) := by
  obtain ⟨tid, tdata⟩ := t
  simp only [parseTransaction, encodeTransactionL, List.append_assoc,
    List.singleton_append, expects_append, parseJString_encode, expects_single,
    Option.some_bind, Option.map_some, Option.map_some']

theorem encodeTransactionL_cons (t : Transaction) :
    ∃ tail, encodeTransactionL t = '\x7b' :: tail :=
  ⟨_, rfl⟩

theorem parseTxsAux_encode :
    ∀ (ts : List Transaction) (t : Transaction) (rest : List Char) (fuel : Nat),
      ts.length + 1 ≤ fuel →
      parseTxsAux fuel (encodeTxsBody (t :: ts) ++ ']' :: rest) = some (t :: ts, rest) := by
  intro ts
  induction ts with
  | nil =>
    intro t rest fuel hf
    obtain ⟨f, rfl⟩ : ∃ f, fuel = f + 1 := ⟨fuel - 1, by omega⟩
    simp only [encodeTxsBody, parseTxsAux, parseTransaction_encode t (']' :: rest)]
  | cons t2 ts ih =>
    intro t rest fuel hf
    obtain ⟨f, rfl⟩ : ∃ f, fuel = f + 1 := ⟨fuel - 1, by omega⟩
    have hf' : ts.length + 1 ≤ f := by
      simp only [List.length_cons] at hf
      omega
    simp only [encodeTxsBody, List.append_assoc, List.cons_append, parseTxsAux,
      parseTransaction_encode t (',' :: (encodeTxsBody (t2 :: ts) ++ ']' :: rest)),
      ih t2 rest f hf']

theorem encodeTxsBody_length :
    ∀ (ts : List Transaction) (t : Transaction),
      (t :: ts).length ≤ (encodeTxsBody (t :: ts)).length := by
  intro ts
  induction ts with
  | nil =>
    intro t
    obtain ⟨tail, htail⟩ := encodeTransactionL_cons t
    simp [encodeTxsBody, htail]
  | cons t2 ts ih =>
    intro t
    obtain ⟨tail, htail⟩ := encodeTransactionL_cons t
    have := ih t2
    simp only [encodeTxsBody, htail, List.length_append, List.length_cons] at *
    omega

theorem mineLoop_emitted :
    ∀ (fuel : Nat) (stop : Nat → Bool) (put : Nat → Option String)
      (prevHash prevCID : String) (txs : List Transaction) (nonce : Int)
      (minedBlocks : Int) (miners : List String) (att : Nat)
      (b : Block) (bc : List (String × Block)) (mc : Int) (at2 : Nat),
      mineLoop fuel stop put prevHash prevCID txs nonce minedBlocks miners att =
        .emitted b bc mc at2 →
      b.PrevHash = prevHash ∧ b.Transactions = txs ∧
      b.Hash = sha256hex (blockDataString prevHash txs b.Nonce) ∧
      sha256nat (blockDataString prevHash txs b.Nonce) < target ∧
      bc = miners.map (fun m => (m, b)) ∧
      (∃ k, put k = some b.PrevCID) ∧
      (∀ j, att ≤ j → j < at2 → stop j = false) ∧ att < at2 := by
  intro fuel
  induction fuel with
  | zero =>
    intro stop put ph pc txs nonce mb miners att b bc mc at2 h
    exact absurd h (by simp [mineLoop])
  | succ f ih =>
    intro stop put ph pc txs nonce mb miners att b bc mc at2 h
    simp only [mineLoop] at h
    by_cases hstop : stop att = true
    · rw [if_pos hstop] at h
      exact absurd h (by simp)
    · rw [if_neg hstop] at h
      have hsf : stop att = false := Bool.eq_false_iff.mpr hstop
      by_cases hlt : sha256nat (blockDataString ph txs nonce) < target
      · rw [if_pos hlt] at h
        cases hput : put att with
        | none =>
          rw [hput] at h
          obtain ⟨p1, p2, p3, p4, p5, p6, p7, p8⟩ :=
            ih stop put ph pc txs nonce (mb + 1) miners (att + 1) b bc mc at2 h
          refine ⟨p1, p2, p3, p4, p5, p6, ?_, by omega⟩
          intro j hj1 hj2
          rcases Nat.eq_or_lt_of_le hj1 with rfl | hj
          · exact hsf
          · exact p7 j hj hj2
        | some cid =>
          rw [hput] at h
          injection h with h1 h2 h3 h4
          subst h1 h2 h3 h4
          refine ⟨rfl, rfl, rfl, hlt, rfl, ⟨att, hput⟩, ?_, by omega⟩
          intro j hj1 hj2
          have : j = att := by omega
          subst this
          exact hsf
      · rw [if_neg hlt] at h
        obtain ⟨p1, p2, p3, p4, p5, p6, p7, p8⟩ :=
          ih stop put ph pc txs (nonce + 1) mb miners (att + 1) b bc mc at2 h
        refine ⟨p1, p2, p3, p4, p5, p6, ?_, by omega⟩
        intro j hj1 hj2
        rcases Nat.eq_or_lt_of_le hj1 with rfl | hj
        · exact hsf
        · exact p7 j hj hj2

theorem mineLoop_putNone :
    ∀ (fuel : Nat) (stop : Nat → Bool) (put : Nat → Option String)
      (prevHash prevCID : String) (txs : List Transaction) (nonce : Int)
      (minedBlocks : Int) (miners : List String) (att : Nat),
      (∀ i, put i = none) →
      ∀ (b : Block) (bc : List (String × Block)) (mc : Int) (at2 : Nat),
        mineLoop fuel stop put prevHash prevCID txs nonce minedBlocks miners att ≠
          .emitted b bc mc at2 := by
  intro fuel
  induction fuel with
  | zero =>
    intro stop put ph pc txs nonce mb miners att hput b bc mc at2
    simp [mineLoop]
  | succ f ih =>
    intro stop put ph pc txs nonce mb miners att hput b bc mc at2
    simp only [mineLoop]
    by_cases hstop : stop att = true
    · rw [if_pos hstop]; simp
    · rw [if_neg hstop]
      by_cases hlt : sha256nat (blockDataString ph txs nonce) < target
      · rw [if_pos hlt, hput att]
        exact ih stop put ph pc txs nonce (mb + 1) miners (att + 1) hput b bc mc at2
      · rw [if_neg hlt]
        exact ih stop put ph pc txs (nonce + 1) mb miners (att + 1) hput b bc mc at2

theorem broadcastsOf_eq_nil {r : MineOutcome}
    (h : ∀ (b : Block) (bc : List (String × Block)) (mc : Int) (at2 : Nat),
      r ≠ .emitted b bc mc at2) : broadcastsOf r = [] := by
  cases r with
  | emitted b bc mc at2 => exact absurd rfl (h b bc mc at2)
  | blocked => rfl
  | stopped a => rfl
  | fuelOut => rfl

theorem startMining_emitted {fuel : Nat} {stop : Nat → Bool} {put : Nat → Option String}
    {prevHash prevCID : String} {buffer : List Transaction} {minedBlocks : Int}
    {miners : List String} {b : Block} {bc : List (String × Block)} {mc : Int} {at2 : Nat}
    (h : startMining fuel stop put prevHash prevCID buffer minedBlocks miners =
      .emitted b bc mc at2) :
    3 ≤ buffer.length ∧
    mineLoop fuel stop put prevHash prevCID (buffer.take 3) 0 minedBlocks miners 1 =
      .emitted b bc mc at2 := by
  unfold startMining at h
  by_cases hstop : stop 0 = true
  · rw [if_pos hstop] at h
    exact absurd h (by simp)
  · rw [if_neg hstop] at h
    by_cases hlen : buffer.length < 3
    · rw [if_pos hlen] at h
      exact absurd h (by simp)
    · rw [if_neg hlen] at h
      exact ⟨by omega, h⟩

theorem parseTxs_encode (ts : List Transaction) (rest : List Char) :
    parseTxs ('[' :: (encodeTxsBody ts ++ ']' :: rest)) = some (ts, rest) := by
  cases ts with
  | nil => rfl
  | cons t ts =>
    obtain ⟨tail, htail⟩ := encodeTransactionL_cons t
    have hcons : ∃ tl, encodeTxsBody (t :: ts) = '\x7b' :: tl := by
      cases ts with
      | nil => exact ⟨tail, by simp [encodeTxsBody, htail]⟩
      | cons t2 ts =>
        exact ⟨tail ++ ',' :: encodeTxsBody (t2 :: ts), by simp [encodeTxsBody, htail]⟩
    obtain ⟨tl, htl⟩ := hcons
    have hfull : ('[' : Char) :: (encodeTxsBody (t :: ts) ++ ']' :: rest) =
        '[' :: '\x7b' :: (tl ++ ']' :: rest) := by
      rw [htl]; rfl
    rw [hfull]
    have hstep : parseTxs ('[' :: '\x7b' :: (tl ++ ']' :: rest)) =
        parseTxsAux ('\x7b' :: (tl ++ ']' :: rest)).length
          ('\x7b' :: (tl ++ ']' :: rest)) := rfl
    rw [hstep]
    have hback : ('\x7b' : Char) :: (tl ++ ']' :: rest) =
        encodeTxsBody (t :: ts) ++ ']' :: rest := by
      rw [htl]; rfl
    rw [hback]
    refine parseTxsAux_encode ts t rest _ ?_
    have h1 := encodeTxsBody_length ts t
    simp only [List.length_append, List.length_cons] at h1 ⊢
    omega

/- ### Claim theorems -/

/-- C1: every Block emitted by the mining engine has its Hash field equal
to the SHA-256 hex digest of the canonical serialization of its PrevHash,
Transactions and Nonce, and that digest read as an unsigned 256-bit
big-endian integer is strictly below the process-wide target. -/
theorem emitted_block_hash_below_target {fuel : Nat} {stop : Nat → Bool}
    {put : Nat → Option String} {prevHash prevCID : String}
    {buffer : List Transaction} {mb : Int} {miners : List String}
    {b : Block} {bc : List (String × Block)} {mc : Int} {at2 : Nat}
    (h : startMining fuel stop put prevHash prevCID buffer mb miners =
      .emitted b bc mc at2) :
    b.Hash = sha256hex (blockDataString b.PrevHash b.Transactions b.Nonce) ∧
    sha256nat (blockDataString b.PrevHash b.Transactions b.Nonce) < target := by
  obtain ⟨_, hm⟩ := startMining_emitted h
  obtain ⟨p1, p2, p3, p4, _⟩ :=
    mineLoop_emitted fuel stop put prevHash prevCID (buffer.take 3) 0 mb miners 1
      b bc mc at2 hm
  rw [p1, p2]
  exact ⟨p3, p4⟩

set_option maxRecDepth 10000 in
/-- C1 witness: a concrete run mining from three buffered transactions
whose nonce-0 candidate digest starts with bytes 0x00 0x1e. -/
theorem emitted_block_hash_below_target_witness :
    startMining 1 (fun _ => false) (fun _ => some "QmX") "-1" "-1"
      wBuffer4 0 ["127.0.0.1"] = .emitted wBlock [("127.0.0.1", wBlock)] 1 2 ∧
    (wBlock.Hash =
        sha256hex (blockDataString wBlock.PrevHash wBlock.Transactions wBlock.Nonce) ∧
      sha256nat (blockDataString wBlock.PrevHash wBlock.Transactions wBlock.Nonce) <
        target) := by
  have h : startMining 1 (fun _ => false) (fun _ => some "QmX") "-1" "-1"
      wBuffer4 0 ["127.0.0.1"] = .emitted wBlock [("127.0.0.1", wBlock)] 1 2 := by
    decide
  exact ⟨h, emitted_block_hash_below_target h⟩

/-- C2: the mining goroutine never begins a second cycle.  Every run
emits at most one block, and an emitted block carries the caller-supplied
previous hash (in the program the constant genesis sentinel "-1"), never
the hash of a previously mined block: after `newBlock <- block` the
function returns, so no next cycle dequeues transactions or re-mines with
the new hash. -/
theorem startMining_no_second_cycle :
    ∀ (fuel : Nat) (stop : Nat → Bool) (put : Nat → Option String)
      (prevHash prevCID : String) (buffer : List Transaction) (mb : Int)
      (miners : List String),
      (emittedBlocks (startMining fuel stop put prevHash prevCID buffer mb miners)).length ≤ 1 ∧
      (∀ (b : Block) (bc : List (String × Block)) (mc : Int) (at2 : Nat),
        startMining fuel stop put prevHash prevCID buffer mb miners =
          .emitted b bc mc at2 → b.PrevHash = prevHash) := by
  intro fuel stop put prevHash prevCID buffer mb miners
  constructor
  · cases h : startMining fuel stop put prevHash prevCID buffer mb miners <;>
      simp [emittedBlocks]
  · intro b bc mc at2 h
    obtain ⟨_, hm⟩ := startMining_emitted h
    exact (mineLoop_emitted fuel stop put prevHash prevCID (buffer.take 3) 0 mb
      miners 1 b bc mc at2 hm).1

set_option maxRecDepth 10000 in
/-- C2 witness: the concrete successful run emits exactly one block and
its PrevHash is the genesis sentinel fed to the goroutine. -/
theorem startMining_no_second_cycle_witness :
    (emittedBlocks (startMining 1 (fun _ => false) (fun _ => some "QmX") "-1" "-1"
      wBuffer4 0 ["127.0.0.1"])).length ≤ 1 ∧ wBlock.PrevHash = "-1" := by
  have h : startMining 1 (fun _ => false) (fun _ => some "QmX") "-1" "-1"
      wBuffer4 0 ["127.0.0.1"] = .emitted wBlock [("127.0.0.1", wBlock)] 1 2 := by
    decide
  exact ⟨(startMining_no_second_cycle 1 (fun _ => false) (fun _ => some "QmX")
      "-1" "-1" wBuffer4 0 ["127.0.0.1"]).1,
    (startMining_no_second_cycle 1 (fun _ => false) (fun _ => some "QmX")
      "-1" "-1" wBuffer4 0 ["127.0.0.1"]).2 wBlock [("127.0.0.1", wBlock)] 1 2 h⟩

set_option maxRecDepth 10000 in
/-- C3 counterexample: with the IPFS upload failing at every attempt, a
mined candidate (its nonce-0 digest is below target) is never broadcast
to the nonempty peer list — the `continue` skips the broadcast loop, so
the block is not sent with any sentinel identifier. -/
theorem put_failure_no_broadcast_cex :
    broadcastsOf (mineLoop 1 (fun _ => false) (fun _ => none) "-1" "-1"
      wTxs 0 0 ["127.0.0.1"] 1) = [] ∧ ("127.0.0.1" :: []) ≠ ([] : List String) := by
  constructor
  · decide
  · decide

/-- C3 (amended): when BlobStore.Put fails, the mined block is NOT
broadcast: as long as every upload attempt fails the run performs no
TCP send at all, and a block is broadcast only after a successful upload,
in which case it goes to every connected miner carrying the content
identifier returned by the successful Put. -/
theorem put_failure_skips_broadcast :
    ∀ (fuel : Nat) (stop : Nat → Bool) (put : Nat → Option String)
      (prevHash prevCID : String) (txs : List Transaction) (nonce mb : Int)
      (miners : List String) (att : Nat)
      (b : Block) (bc : List (String × Block)) (mc : Int) (at2 : Nat),
      ((∀ i, put i = none) →
        broadcastsOf (mineLoop fuel stop put prevHash prevCID txs nonce mb miners att) = []) ∧
      (mineLoop fuel stop put prevHash prevCID txs nonce mb miners att =
          .emitted b bc mc at2 →
        bc = miners.map (fun m => (m, b)) ∧ ∃ k, put k = some b.PrevCID) := by
  intro fuel stop put prevHash prevCID txs nonce mb miners att b bc mc at2
  constructor
  · intro hput
    exact broadcastsOf_eq_nil
      (mineLoop_putNone fuel stop put prevHash prevCID txs nonce mb miners att hput)
  · intro h
    obtain ⟨_, _, _, _, p5, p6, _⟩ :=
      mineLoop_emitted fuel stop put prevHash prevCID txs nonce mb miners att
        b bc mc at2 h
    exact ⟨p5, p6⟩

set_option maxRecDepth 10000 in
/-- C3 witness: failing uploads yield no broadcast on the concrete lucky
input, and the successful run broadcasts the emitted block to the one
connected miner. -/
theorem put_failure_skips_broadcast_witness :
    broadcastsOf (mineLoop 1 (fun _ => false) (fun _ => none) "-1" "-1"
      wTxs 0 0 ["127.0.0.1"] 1) = [] ∧
    [("127.0.0.1", wBlock)] = ["127.0.0.1"].map (fun m => (m, wBlock)) := by
  have h : mineLoop 1 (fun _ => false) (fun _ => some "QmX") "-1" "-1"
      wTxs 0 0 ["127.0.0.1"] 1 = .emitted wBlock [("127.0.0.1", wBlock)] 1 2 := by
    decide
  exact ⟨(put_failure_skips_broadcast 1 (fun _ => false) (fun _ => none) "-1" "-1"
      wTxs 0 0 ["127.0.0.1"] 1 wBlock [] 0 0).1 (fun _ => rfl),
    ((put_failure_skips_broadcast 1 (fun _ => false) (fun _ => some "QmX") "-1" "-1"
      wTxs 0 0 ["127.0.0.1"] 1 wBlock [("127.0.0.1", wBlock)] 1 2).2 h).1⟩

/-- C4: validation rejects a decoded block containing a transaction with
an empty ID, and rejects a block whose PrevHash differs from the
caller-supplied expected hash when that hash is not the "-1" sentinel;
and whenever validation fails in the receive loop, the vote tally is left
untouched (no vote, no quorum announcement). -/
theorem validateBlock_rejects_bad_blocks :
    ∀ (s : String) (b : Block) (prev : String) (tgt : Nat)
      (miners : List String) (tally : String → Nat),
      blockFromJson s = some b →
      (((∃ tx ∈ b.Transactions, tx.ID = "") ∨ (prev ≠ "-1" ∧ b.PrevHash ≠ prev)) →
        validateBlock s prev tgt = false) ∧
      (validateBlock s "-1" target = false →
        receiveStep miners tally s = ⟨tally, false, false⟩) := by
  intro s b prev tgt miners tally hdec
  constructor
  · intro hbad
    simp only [validateBlock, hdec]
    rcases hbad with ⟨tx, htx, hid⟩ | hmm
    · by_cases hcond : prev ≠ "-1" ∧ b.PrevHash ≠ prev
      · rw [if_pos hcond]
      · rw [if_neg hcond]
        apply Bool.eq_false_iff.mpr
        intro hall
        have h2 := List.all_eq_true.mp hall tx htx
        rw [hid] at h2
        simp at h2
    · rw [if_pos hmm]
  · intro hval
    simp only [receiveStep, hdec, hval]
    simp

set_option maxRecDepth 10000 in
/-- C4 witness: a payload with an empty transaction ID among three
entries is rejected and records no vote. -/
theorem validateBlock_rejects_bad_blocks_witness :
    validateBlock wBadPayload "-1" target = false ∧
    receiveStep ["127.0.0.1"] (fun _ => 0) wBadPayload = ⟨fun _ => 0, false, false⟩ := by
  have hdec : blockFromJson wBadPayload = some wBadBlock := by decide
  have hfalse : validateBlock wBadPayload "-1" target = false := by decide
  exact ⟨(validateBlock_rejects_bad_blocks wBadPayload wBadBlock "-1" target
      ["127.0.0.1"] (fun _ => 0) hdec).1 (Or.inl (by decide)),
    (validateBlock_rejects_bad_blocks wBadPayload wBadBlock "-1" target
      ["127.0.0.1"] (fun _ => 0) hdec).2 hfalse⟩

/-- C5: for a decoded block that passes validation, the quorum
announcement fires exactly when the incremented vote count strictly
exceeds `floor(PeerCount/2)` computed with integer division. -/
theorem quorum_vote_threshold :
    ∀ (miners : List String) (tally : String → Nat) (s : String) (b : Block),
      blockFromJson s = some b → validateBlock s "-1" target = true →
      ((receiveStep miners tally s).quorum = true ↔
        miners.length / 2 < tally (getBlockHash s) + 1) := by
  intro miners tally s b hdec hval
  simp only [receiveStep, hdec, hval]
  simp

set_option maxRecDepth 10000 in
/-- C5 witness: with five peers, a third recorded vote reaches quorum
while a second does not. -/
theorem quorum_vote_threshold_witness :
    (receiveStep ["p1", "p2", "p3", "p4", "p5"] (fun _ => 2) wRecvPayload).quorum = true ∧
    (receiveStep ["p1", "p2", "p3", "p4", "p5"] (fun _ => 1) wRecvPayload).quorum = false := by
  have hdec : blockFromJson wRecvPayload = some wRecvBlock := by decide
  have hval : validateBlock wRecvPayload "-1" target = true := by decide
  constructor
  · exact (quorum_vote_threshold ["p1", "p2", "p3", "p4", "p5"] (fun _ => 2)
      wRecvPayload wRecvBlock hdec hval).mpr (by decide)
  · have hiff := quorum_vote_threshold ["p1", "p2", "p3", "p4", "p5"] (fun _ => 1)
      wRecvPayload wRecvBlock hdec hval
    cases hq : (receiveStep ["p1", "p2", "p3", "p4", "p5"] (fun _ => 1) wRecvPayload).quorum
    · rfl
    · exact absurd (hiff.mp hq) (by decide)

/-- C6: every emitted Block contains exactly the first three transactions
dequeued from the buffer, in FIFO order — never fewer, never more. -/
theorem emitted_block_three_transactions {fuel : Nat} {stop : Nat → Bool}
    {put : Nat → Option String} {prevHash prevCID : String}
    {buffer : List Transaction} {mb : Int} {miners : List String}
    {b : Block} {bc : List (String × Block)} {mc : Int} {at2 : Nat}
    (h : startMining fuel stop put prevHash prevCID buffer mb miners =
      .emitted b bc mc at2) :
    b.Transactions = buffer.take 3 ∧ b.Transactions.length = 3 := by
  obtain ⟨hlen, hm⟩ := startMining_emitted h
  obtain ⟨_, p2, _⟩ :=
    mineLoop_emitted fuel stop put prevHash prevCID (buffer.take 3) 0 mb miners 1
      b bc mc at2 hm
  refine ⟨p2, ?_⟩
  rw [p2, List.length_take]
  omega

set_option maxRecDepth 10000 in
/-- C6 witness: from a four-element buffer the emitted block carries
exactly the first three transactions in dequeue order. -/
theorem emitted_block_three_transactions_witness :
    wBlock.Transactions = wBuffer4.take 3 ∧ wBlock.Transactions.length = 3 := by
  have h : startMining 1 (fun _ => false) (fun _ => some "QmX") "-1" "-1"
      wBuffer4 0 ["127.0.0.1"] = .emitted wBlock [("127.0.0.1", wBlock)] 1 2 := by
    decide
  exact emitted_block_three_transactions h

/-- C7: the stop signal is polled before every nonce attempt: if it is
observable at the next check, the proof-of-work loop returns at once —
no further hash attempt, no emitted block, attempts counter unchanged —
and conversely an emitted run saw the signal unready at every check. -/
theorem stop_signal_bounded_cancellation :
    ∀ (fuel : Nat) (stop : Nat → Bool) (put : Nat → Option String)
      (prevHash prevCID : String) (txs : List Transaction) (nonce mb : Int)
      (miners : List String) (att : Nat)
      (b : Block) (bc : List (String × Block)) (mc : Int) (at2 : Nat),
      (stop att = true →
        mineLoop (fuel + 1) stop put prevHash prevCID txs nonce mb miners att =
          .stopped att) ∧
      (mineLoop fuel stop put prevHash prevCID txs nonce mb miners att =
          .emitted b bc mc at2 →
        ∀ j, att ≤ j → j < at2 → stop j = false) := by
  intro fuel stop put prevHash prevCID txs nonce mb miners att b bc mc at2
  constructor
  · intro hstop
    simp [mineLoop, hstop]
  · intro h
    exact (mineLoop_emitted fuel stop put prevHash prevCID txs nonce mb miners att
      b bc mc at2 h).2.2.2.2.2.2.1

set_option maxRecDepth 10000 in
/-- C7 witness: with the signal ready, the loop stops at once from an
arbitrary mid-search state; and the concrete emitted run never saw the
signal ready. -/
theorem stop_signal_bounded_cancellation_witness :
    mineLoop 1 (fun _ => true) (fun _ => some "QmX") "-1" "-1"
      wTxs 0 0 ["127.0.0.1"] 5 = .stopped 5 ∧
    (fun _ => false : Nat → Bool) 1 = false := by
  have h : mineLoop 1 (fun _ => false) (fun _ => some "QmX") "-1" "-1"
      wTxs 0 0 ["127.0.0.1"] 1 = .emitted wBlock [("127.0.0.1", wBlock)] 1 2 := by
    decide
  exact ⟨(stop_signal_bounded_cancellation 0 (fun _ => true) (fun _ => some "QmX")
      "-1" "-1" wTxs 0 0 ["127.0.0.1"] 5 wBlock [] 0 0).1 rfl,
    (stop_signal_bounded_cancellation 1 (fun _ => false) (fun _ => some "QmX")
      "-1" "-1" wTxs 0 0 ["127.0.0.1"] 1 wBlock [("127.0.0.1", wBlock)] 1 2).2
      h 1 le_rfl (by decide)⟩

/-- C8: the transaction built by the intake path has ID equal to the
SHA-256 hex digest of its Data, deterministically: the ID is exactly the
digest of the stored result string, never set independently. -/
theorem transaction_id_sha256 :
    ∀ result : String,
      (processTransaction result).ID = sha256hex result ∧
      (processTransaction result).Data = result ∧
      (processTransaction result).ID = sha256hex (processTransaction result).Data :=
  fun _ => ⟨rfl, rfl, rfl⟩

/-- C9: serializing any Block with the broadcast JSON encoding and
deserializing the result reproduces the Block field-for-field, including
PrevCID and BlockNumber. -/
theorem block_json_roundtrip (b : Block) : blockFromJson (blockToJson b) = some b := by
  obtain ⟨ph, ts, nonce, hsh, pcid, bn⟩ := b
  show blockFromJsonL (blockToJsonL ⟨ph, ts, nonce, hsh, pcid, bn⟩) = _
  simp only [blockToJsonL, blockFromJsonL, List.append_eq, List.nil_append,
    List.append_assoc, List.cons_append, List.singleton_append, expects,
    expects_append, parseJString_encode, parseTxs_encode, parseInt_encode_comma,
    parseInt_encode_brace, Option.some_bind, if_true]

/-- C10: validation succeeds exactly when the payload decodes and the
linkage and non-empty-ID checks pass; the result never depends on the
target parameter (nor on the Hash, Nonce or transaction count, which the
right-hand side does not mention), and every validated payload increments
the vote tally at the payload hash. -/
theorem validateBlock_characterization :
    ∀ (s prev : String) (t1 t2 : Nat) (miners : List String) (tally : String → Nat),
      (validateBlock s prev t1 = true ↔
        ∃ b, blockFromJson s = some b ∧ (prev = "-1" ∨ b.PrevHash = prev) ∧
          ∀ tx ∈ b.Transactions, tx.ID ≠ "") ∧
      validateBlock s prev t1 = validateBlock s prev t2 ∧
      (validateBlock s "-1" target = true →
        (receiveStep miners tally s).tally (getBlockHash s) = tally (getBlockHash s) + 1 ∧
        (receiveStep miners tally s).voted = true) := by
  intro s prev t1 t2 miners tally
  refine ⟨?_, rfl, ?_⟩
  · cases hdec : blockFromJson s with
    | none =>
      simp only [validateBlock, hdec]
      simp
    | some b =>
      simp only [validateBlock, hdec]
      constructor
      · intro hv
        by_cases hcond : prev ≠ "-1" ∧ b.PrevHash ≠ prev
        · rw [if_pos hcond] at hv
          exact absurd hv (by simp)
        · rw [if_neg hcond] at hv
          refine ⟨b, rfl, ?_, ?_⟩
          · by_cases hp : prev = "-1"
            · exact Or.inl hp
            · right
              by_contra hph
              exact hcond ⟨hp, hph⟩
          · intro tx htx
            have h2 := List.all_eq_true.mp hv tx htx
            simpa using h2
      · rintro ⟨b2, hb2, hlink, hids⟩
        injection hb2 with hb2
        subst hb2
        have hcond : ¬ (prev ≠ "-1" ∧ b.PrevHash ≠ prev) := by
          rcases hlink with hp | hph
          · intro hx
            exact hx.1 hp
          · intro hx
            exact hx.2 hph
        rw [if_neg hcond]
        rw [List.all_eq_true]
        intro tx htx
        simpa using hids tx htx
  · intro hval
    have hdec2 : ∃ b, blockFromJson s = some b := by
      cases hd : blockFromJson s with
      | some b => exact ⟨b, rfl⟩
      | none =>
        rw [validateBlock.eq_def, hd] at hval
        exact absurd hval (by simp)
    obtain ⟨b, hb⟩ := hdec2
    simp only [receiveStep, hb, hval]
    constructor
    · simp
    · simp

set_option maxRecDepth 10000 in
/-- C10 witness: a payload with zero transactions and a Hash field
unrelated to its contents is accepted and receives a vote. -/
theorem validateBlock_characterization_witness :
    validateBlock wEmptyPayload "-1" target = true ∧
    (receiveStep ["p1", "p2"] (fun _ => 0) wEmptyPayload).tally
      (getBlockHash wEmptyPayload) = 0 + 1 ∧
    (receiveStep ["p1", "p2"] (fun _ => 0) wEmptyPayload).voted = true := by
  have hval : validateBlock wEmptyPayload "-1" target = true := by decide
  have h2 := (validateBlock_characterization wEmptyPayload "-1" target target
    ["p1", "p2"] (fun _ => 0)).2.2 hval
  exact ⟨hval, h2.1, h2.2⟩

end CryptoGo
